import Mathlib

/-!
Verification of the rule-based cellular automaton engine
(`src/main.rs` of color-rules-cellular-automata).

The Rust source is shallowly embedded: `Vec<u32>` buffers become `List Nat`
(with `List.get?` returning `none` where Rust indexing would panic out of
bounds), `Vec<bool>` becomes `List Bool`, `u32` symbols become `Nat`, and the
`rand` random sources become explicit oracle functions `Nat → Nat` giving the
sequence of draws.  The `f32` probability computation of the rule-count
calibration loop is embedded as exact arithmetic on numerator/denominator
pairs of naturals (the comparisons `prob < 0.999` etc. are expressed in
cross-multiplied integer form).
-/

/-- Embedding of `struct WorldRule { symbols_needed: Vec<u32>, output_symbol: u32 }`. -/
structure WorldRule where
  symbols_needed : List Nat
  output_symbol : Nat
deriving DecidableEq, Repr

/-- Embedding of `struct World` (main.rs lines 13-22).  The `symbol_to_color`
table keeps the three `u8` channels as naturals. -/
structure World where
  size : Nat
  data : List Nat
  prev_data : List Nat
  cell_changed_flags : List Bool
  neighborhood_changed_flags : List Bool
  symbol_count : Nat
  symbol_to_color : List (Nat × Nat × Nat)
  rules : List WorldRule
deriving DecidableEq, Repr

/-- Value of a `Vec<u32>` at index `i` (defaults to 0 out of range; all uses in
`World.step` are in range for well-formed worlds). -/
def valAt (l : List Nat) (i : Nat) : Nat := l.getD i 0

/-- Value of a `Vec<bool>` at index `i` (defaults to `false` out of range). -/
def flagAt (l : List Bool) (i : Nat) : Bool := l.getD i false

/-- The toroidal wraparound used identically in `compute_transition`
(main.rs lines 249-250) and in the erosion pass (lines 163-164):
`let yy = if y < 0 {world_size-1} else if y as u32 == world_size {0} else {y as u32};`.
Only the single coordinates `-1` and `world_size` are remapped. -/
def wrapCoord (world_size : Nat) (c : Int) : Nat :=
  if c < 0 then world_size - 1
  else if c = (world_size : Int) then 0
  else c.toNat

/-- The nine `(dy, dx)` offsets of the `for y in (yc-1)..(yc+2) { for x in (xc-1)..(xc+2) }`
double loop, in iteration order (y outer, x inner). -/
def nineOffsets : List (Int × Int) :=
  [(-1, -1), (-1, 0), (-1, 1), (0, -1), (0, 0), (0, 1), (1, -1), (1, 0), (1, 1)]

/-- The nine flattened buffer indices `yy*world_size + xx` visited by the 3x3
toroidal neighborhood loops around `(xc, yc)`, in iteration order. -/
def neighborIdx (world_size : Nat) (xc yc : Nat) : List Nat :=
  nineOffsets.map (fun (d : Int × Int) =>
    wrapCoord world_size ((yc : Int) + d.1) * world_size +
      wrapCoord world_size ((xc : Int) + d.2))

/-- Reads a list of buffer indices; `none` as soon as one read is out of
bounds (where the Rust `prev_data[i]` would panic). -/
def getsAll (prev_data : List Nat) : List Nat → Option (List Nat)
  | [] => some []
  | i :: is =>
    match prev_data[i]?, getsAll prev_data is with
    | some v, some vs => some (v :: vs)
    | _, _ => none

/-- The nine neighborhood symbols around `(xc, yc)` (main.rs lines 245-256),
kept as a list: the Rust code inserts them into a `HashSet` and only membership
is ever consulted, so list membership is an equivalent model of the set. -/
def gather9 (prev_data : List Nat) (world_size : Nat) (xc yc : Nat) : Option (List Nat) :=
  getsAll prev_data (neighborIdx world_size xc yc)

/-- A rule matches iff every needed symbol occurs in the gathered neighborhood
(the `found_non_match` loop of main.rs lines 260-267). -/
def ruleMatches (rule : WorldRule) (symbol_set : List Nat) : Bool :=
  rule.symbols_needed.all (fun s => symbol_set.contains s)

/-- Embedding of `fn compute_transition` (main.rs lines 239-276): gather the
3x3 toroidal neighborhood into a symbol set, return the output of the first
matching rule, else the previous value at the cell itself.  `none` models an
out-of-bounds panic. -/
def compute_transition (prev_data : List Nat) (world_size : Nat) (pos : Nat × Nat)
    (rules : List WorldRule) : Option Nat :=
  match gather9 prev_data world_size pos.1 pos.2 with
  | none => none
  | some symbol_set =>
    match rules.find? (fun rule => ruleMatches rule symbol_set) with
    | some rule => some rule.output_symbol
    | none => prev_data[pos.2 * world_size + pos.1]?

/-- Embedding of `World::step` (main.rs lines 124-176).  After the
`mem::swap`, the old `data` buffer is the read snapshot (`prev_data` in the
Rust body) and the old `prev_data` buffer is the write target; a cell whose
`neighborhood_changed` flag is false is left at the write target's stale
value and its (freshly reset) `cell_changed` flag stays false.  The second
phase recomputes every `neighborhood_changed` flag as the OR of the new
`cell_changed` flags over the same toroidal 3x3 neighborhood. -/
def World.step (w : World) : World :=
  let world_size := w.size
  let prev_data := w.data
  let write_buf := w.prev_data
  let n := write_buf.length
  let newData : List Nat := (List.range n).map (fun i =>
    if flagAt w.neighborhood_changed_flags i then
      let x := i % world_size
      let y := (i - x) / world_size
      (compute_transition prev_data world_size (x, y) w.rules).getD 0
    else valAt write_buf i)
  let newCellChanged : List Bool := (List.range n).map (fun i =>
    if flagAt w.neighborhood_changed_flags i then
      let x := i % world_size
      let y := (i - x) / world_size
      (compute_transition prev_data world_size (x, y) w.rules).getD 0 != valAt prev_data i
    else false)
  let newNeighborhoodChanged : List Bool := (List.range n).map (fun i =>
    let xc := i % world_size
    let yc := (i - xc) / world_size
    (neighborIdx world_size xc yc).any (fun ii => flagAt newCellChanged ii))
  { w with
    data := newData
    prev_data := prev_data
    cell_changed_flags := newCellChanged
    neighborhood_changed_flags := newNeighborhoodChanged }

/-- Embedding of `World::randomize` (main.rs lines 178-184): every cell of
`data` is redrawn from the process-wide `thread_rng`, modelled by the draw
oracle `rand`; `(r * symbol_count).floor()` with `r` uniform on `[0,1)` yields
a value in `[0, symbol_count)`, modelled as `rand i % symbol_count`. -/
def World.randomize (w : World) (rand : Nat → Nat) : World :=
  { w with data := (List.range w.data.length).map (fun i => rand i % w.symbol_count) }

/-- A seeded random source (`StdRng::seed_from_u64` plus the `random` closure
of main.rs lines 30-35), modelled as the stream of draws `rng` together with
the index `k` of the next draw. -/
structure RngState where
  rng : Nat → Nat
  k : Nat

/-- One call of the closure `random(start, end)` (main.rs lines 32-35), which
returns a value in the inclusive range `[start, end]` ("includes end").  The
draw is mapped into the range by reduction modulo the range width. -/
def drawRange (s : RngState) (start endv : Nat) : Nat × RngState :=
  (start + s.rng s.k % (endv + 1 - start), ⟨s.rng, s.k + 1⟩)

/-- The color-table loop of main.rs lines 37-43: three draws per symbol. -/
def genColors (symbol_count : Nat) (s : RngState) : List (Nat × Nat × Nat) × RngState :=
  (List.range symbol_count).foldl (fun acc _ =>
    let r := drawRange acc.2 0 255
    let g := drawRange r.2 0 255
    let b := drawRange g.2 0 255
    (acc.1 ++ [(r.1, g.1, b.1)], b.2)) ([], s)

/-- Numerator of `1 - a` where `a = (1 - 1/symbol_count)^9` (main.rs line 73),
over the common denominator `symbol_count^9`. -/
def calibQ (symbol_count : Nat) : Nat := symbol_count ^ 9 - (symbol_count - 1) ^ 9

/-- Numerator of `b = 1 - (1 - a)^avg_symbols_per_rule` (main.rs line 74) over
the denominator `(symbol_count^9)^avg_symbols_per_rule`. -/
def calibBn (symbol_count avg : Nat) : Nat :=
  (symbol_count ^ 9) ^ avg - calibQ symbol_count ^ avg

/-- Denominator of `b`: `(symbol_count^9)^avg_symbols_per_rule`. -/
def calibBd (symbol_count avg : Nat) : Nat := (symbol_count ^ 9) ^ avg

/-- The doubling loop of main.rs lines 69-76.  At iteration `m` the candidate
rule count is `2^m`; the exit test `prob_match ≥ 0.999`, i.e.
`1 - (bn/bd)^R ≥ 999/1000`, is the exact integer comparison
`1000 * bn^R ≤ bd^R`.  Structural fuel makes the recursion total; the fuel
passed by `ruleCountOf` is provably sufficient. -/
def calibLoop (bn bd : Nat) : Nat → Nat → Nat
  | 0, m => m
  | fuel + 1, m => if 1000 * bn ^ 2 ^ m ≤ bd ^ 2 ^ m then m else calibLoop bn bd fuel (m + 1)

/-- The calibrated `rule_count`: `2^m` for the first `m ≥ 1` whose match
probability reaches the threshold (main.rs lines 69-76). -/
def ruleCountOf (symbol_count avg : Nat) : Nat :=
  2 ^ calibLoop (calibBn symbol_count avg) (calibBd symbol_count avg)
    (999 * calibBn symbol_count avg + 2) 1

/-- Generation of one `WorldRule` (main.rs lines 91-101): each symbol of
`0..symbol_count` is included when `random(0,1000) < add_symbol_chance*1000`
(in exact form `draw * symbol_count < 1000 * avg`); an empty set gets one
forced uniform symbol; then the output symbol is drawn. -/
def genRule (symbol_count avg : Nat) (s : RngState) : WorldRule × RngState :=
  let needed_s := (List.range symbol_count).foldl (fun acc symbol =>
    let r := drawRange acc.2 0 1000
    if r.1 * symbol_count < 1000 * avg then (acc.1 ++ [symbol], r.2) else (acc.1, r.2))
    (([] : List Nat), s)
  let forced := if needed_s.1.isEmpty then
      let v := drawRange needed_s.2 0 (symbol_count - 1)
      ([v.1], v.2)
    else needed_s
  let out := drawRange forced.2 0 (symbol_count - 1)
  (⟨forced.1, out.1⟩, out.2)

/-- The rule-generation loop of main.rs lines 89-102. -/
def genRules (symbol_count avg rule_count : Nat) (s : RngState) : List WorldRule × RngState :=
  (List.range rule_count).foldl (fun acc _ =>
    let r := genRule symbol_count avg acc.2
    (acc.1 ++ [r.1], r.2)) ([], s)

/-- Exact power-of-two test, modelling the construction-time assertion
`(world_size as f32).log(2.0) % 1.0 == 0.0` (main.rs line 27). -/
def isPow2 (n : Nat) : Bool := (List.range (n + 1)).any (fun k => 2 ^ k == n)

/-- Embedding of `World::new` (main.rs lines 26-116).  The two `assert!`
failures (non-power-of-two size, `add_symbol_chance ≥ 1.0`, and the final
non-empty-rules assertion) become `none`; `add_symbol_chance < 1.0` with
`add_symbol_chance = avg/symbol_count` is the exact test
`avg < symbol_count`. -/
def World.new? (world_size symbol_count avg_symbols_per_rule : Nat)
    (rng : Nat → Nat) : Option World :=
  if !isPow2 world_size then none else
  let s : RngState := ⟨rng, 0⟩
  let cs := genColors symbol_count s
  let rc := ruleCountOf symbol_count avg_symbols_per_rule
  if !(avg_symbols_per_rule < symbol_count : Bool) then none else
  let rs := genRules symbol_count avg_symbols_per_rule rc cs.2
  if rs.1.isEmpty then none else
  some {
    size := world_size
    data := List.replicate (world_size * world_size) 0
    prev_data := List.replicate (world_size * world_size) 0
    cell_changed_flags := List.replicate (world_size * world_size) true
    neighborhood_changed_flags := List.replicate (world_size * world_size) true
    symbol_count := symbol_count
    symbol_to_color := cs.1
    rules := rs.1 }

theorem getD_range_map {α : Type} (f : Nat → α) (n i : Nat) (d : α) (h : i < n) :
    ((List.range n).map f).getD i d = f i := by
  simp [List.getD, List.getElem?_map, List.getElem?_range, h]

theorem sub_mod_div (i N : Nat) : (i - i % N) / N = i / N := by
  rcases Nat.eq_zero_or_pos N with hN | hN
  · subst hN; simp [Nat.mod_zero]
  · have h := Nat.div_add_mod i N
    have h2 : i - i % N = N * (i / N) := by omega
    rw [h2, Nat.mul_div_cancel_left _ hN]

theorem step_data_length (w : World) : (World.step w).data.length = w.prev_data.length := by
  simp [World.step]

theorem step_prev_length (w : World) : (World.step w).prev_data.length = w.data.length := by
  simp [World.step]

theorem step_cc_length (w : World) :
    (World.step w).cell_changed_flags.length = w.prev_data.length := by
  simp [World.step]

theorem step_nc_length (w : World) :
    (World.step w).neighborhood_changed_flags.length = w.prev_data.length := by
  simp [World.step]

theorem step_prev_eq (w : World) : (World.step w).prev_data = w.data := rfl

theorem step_data_at (w : World) (i : Nat) (h : i < w.prev_data.length) :
    valAt (World.step w).data i =
      if flagAt w.neighborhood_changed_flags i then
        (compute_transition w.data w.size (i % w.size, i / w.size) w.rules).getD 0
      else valAt w.prev_data i := by
  simp only [World.step, valAt]
  rw [getD_range_map _ _ _ _ h, sub_mod_div]

theorem step_cc_at (w : World) (i : Nat) (h : i < w.prev_data.length) :
    flagAt (World.step w).cell_changed_flags i =
      if flagAt w.neighborhood_changed_flags i then
        ((compute_transition w.data w.size (i % w.size, i / w.size) w.rules).getD 0
          != valAt w.data i)
      else false := by
  simp only [World.step, flagAt, valAt]
  rw [getD_range_map _ _ _ _ h, sub_mod_div]

theorem step_nc_at (w : World) (i : Nat) (h : i < w.prev_data.length) :
    flagAt (World.step w).neighborhood_changed_flags i =
      (neighborIdx w.size (i % w.size) (i / w.size)).any
        (fun ii => flagAt (World.step w).cell_changed_flags ii) := by
  simp only [World.step, flagAt]
  rw [getD_range_map _ _ _ _ h, sub_mod_div]

theorem wrapCoord_lt (N : Nat) (hN : 0 < N) (c : Int) (hc : c ≤ (N : Int)) :
    wrapCoord N c < N := by
  unfold wrapCoord
  split
  · omega
  · split
    · omega
    · rename_i h1 h2
      have : c < (N : Int) := lt_of_le_of_ne hc h2
      omega

theorem wrapCoord_of_lt (N y : Nat) (h : y < N) : wrapCoord N (y : Int) = y := by
  unfold wrapCoord
  split
  · omega
  · split
    · omega
    · simp

theorem row_col_lt (N a b : Nat) (ha : a < N) (hb : b < N) : a * N + b < N * N := by
  calc a * N + b < a * N + N := by omega
    _ = (a + 1) * N := by ring
    _ ≤ N * N := Nat.mul_le_mul_right N ha

theorem neighborIdx_lt (N x y : Nat) (hx : x < N) (hy : y < N) :
    ∀ j ∈ neighborIdx N x y, j < N * N := by
  intro j hj
  have hgen : ∀ dy dx : Int, -1 ≤ dy → dy ≤ 1 → -1 ≤ dx → dx ≤ 1 →
      wrapCoord N ((y : Int) + dy) * N + wrapCoord N ((x : Int) + dx) < N * N := by
    intro dy dx h1 h2 h3 h4
    exact row_col_lt N _ _ (wrapCoord_lt N (by omega) _ (by omega))
      (wrapCoord_lt N (by omega) _ (by omega))
  simp only [neighborIdx, nineOffsets, List.map_cons, List.map_nil, List.mem_cons,
    List.not_mem_nil, or_false] at hj
  rcases hj with h | h | h | h | h | h | h | h | h <;> subst h <;>
    exact hgen _ _ (by omega) (by omega) (by omega) (by omega)

theorem center_mem_neighborIdx (N x y : Nat) (hx : x < N) (hy : y < N) :
    y * N + x ∈ neighborIdx N x y := by
  have h1 : wrapCoord N ((y : Int) + 0) = y := by
    rw [add_zero]; exact wrapCoord_of_lt N y hy
  have h2 : wrapCoord N ((x : Int) + 0) = x := by
    rw [add_zero]; exact wrapCoord_of_lt N x hx
  simp only [neighborIdx, nineOffsets, List.map_cons, List.map_nil, List.mem_cons]
  refine Or.inr (Or.inr (Or.inr (Or.inr (Or.inl ?_))))
  rw [h1, h2]

theorem getsAll_isSome (prev : List Nat) (l : List Nat) (h : ∀ j ∈ l, j < prev.length) :
    ∃ vs, getsAll prev l = some vs := by
  induction l with
  | nil => exact ⟨[], rfl⟩
  | cons i is ih =>
    have hi : i < prev.length := h i (List.mem_cons_self i is)
    obtain ⟨vs, hvs⟩ := ih (fun j hj => h j (List.mem_cons_of_mem i hj))
    cases hv : prev[i]? with
    | none =>
      have := List.getElem?_eq_none_iff.mp hv
      omega
    | some v => exact ⟨v :: vs, by simp [getsAll, hv, hvs]⟩

theorem getsAll_congr (p q : List Nat) (l : List Nat)
    (h : ∀ j ∈ l, p[j]? = q[j]?) : getsAll p l = getsAll q l := by
  induction l with
  | nil => rfl
  | cons i is ih =>
    have hi := h i (List.mem_cons_self i is)
    have his := ih (fun j hj => h j (List.mem_cons_of_mem i hj))
    simp [getsAll, hi, his]

theorem compute_transition_congr (p q : List Nat) (N x y : Nat) (rules : List WorldRule)
    (hx : x < N) (hy : y < N)
    (h : ∀ j ∈ neighborIdx N x y, p[j]? = q[j]?) :
    compute_transition p N (x, y) rules = compute_transition q N (x, y) rules := by
  simp only [compute_transition, gather9]
  rw [getsAll_congr p q _ h]
  cases getsAll q (neighborIdx N x y) with
  | none => rfl
  | some s =>
    simp only []
    cases (rules.find? (fun rule => ruleMatches rule s)) with
    | some r => rfl
    | none => exact h _ (center_mem_neighborIdx N x y hx hy)

theorem compute_transition_isSome (prev : List Nat) (N x y : Nat) (rules : List WorldRule)
    (hx : x < N) (hy : y < N) (hlen : prev.length = N * N) :
    ∃ v, compute_transition prev N (x, y) rules = some v := by
  obtain ⟨vs, hvs⟩ := getsAll_isSome prev (neighborIdx N x y)
    (fun j hj => by rw [hlen]; exact neighborIdx_lt N x y hx hy j hj)
  have hc : y * N + x < prev.length := by rw [hlen]; exact row_col_lt N y x hy hx
  cases hfind : (rules.find? (fun rule => ruleMatches rule vs)) with
  | some r =>
    exact ⟨r.output_symbol, by simp only [compute_transition, gather9]; rw [hvs]; simp [hfind]⟩
  | none =>
    cases hv : prev[y * N + x]? with
    | none =>
      have := List.getElem?_eq_none_iff.mp hv
      omega
    | some v =>
      exact ⟨v, by simp only [compute_transition, gather9]; rw [hvs]; simp [hfind, hv]⟩

theorem valAt_getElem? {l : List Nat} {j : Nat} (h : j < l.length) :
    l[j]? = some (valAt l j) := by
  simp [valAt, List.getD, List.getElem?_eq_getElem h]

/-- Well-formedness: all four buffers have `size²` entries (as produced by
`World::new`) and the side is positive. -/
def WF (w : World) : Prop :=
  0 < w.size ∧ w.data.length = w.size * w.size ∧ w.prev_data.length = w.size * w.size ∧
  w.cell_changed_flags.length = w.size * w.size ∧
  w.neighborhood_changed_flags.length = w.size * w.size

/-- Invariant J: a cell not flagged as changed holds the same value in both
buffers (so the stale write-target value of a skipped cell is already the
current value). -/
def InvBuffersAgree (w : World) : Prop :=
  ∀ i < w.size * w.size, flagAt w.cell_changed_flags i = false →
    valAt w.data i = valAt w.prev_data i

/-- Invariant E: `neighborhood_changed` is exactly the erosion (neighborhood
OR) of `cell_changed`, as (re)established by the second phase of `step`. -/
def InvErosion (w : World) : Prop :=
  ∀ i < w.size * w.size, flagAt w.neighborhood_changed_flags i =
    (neighborIdx w.size (i % w.size) (i / w.size)).any
      (fun j => flagAt w.cell_changed_flags j)

/-- Invariant K: a cell whose neighborhood is quiescent is a fixed point of
the transition function on the current buffer. -/
def InvStable (w : World) : Prop :=
  ∀ i < w.size * w.size, flagAt w.neighborhood_changed_flags i = false →
    compute_transition w.data w.size (i % w.size, i / w.size) w.rules =
      some (valAt w.data i)

/-- The inductive invariant that makes the dirty-flag skip optimization of
`World::step` sound. -/
def StepInv (w : World) : Prop :=
  WF w ∧ InvBuffersAgree w ∧ InvErosion w ∧ InvStable w

theorem center_self_mem (w : World) (i : Nat) (hN : 0 < w.size)
    (hi : i < w.size * w.size) :
    i ∈ neighborIdx w.size (i % w.size) (i / w.size) := by
  have hx : i % w.size < w.size := Nat.mod_lt _ hN
  have hy : i / w.size < w.size := Nat.div_lt_of_lt_mul hi
  have hmem := center_mem_neighborIdx w.size (i % w.size) (i / w.size) hx hy
  have heq : i / w.size * w.size + i % w.size = i := by
    rw [Nat.mul_comm]; exact Nat.div_add_mod i w.size
  rwa [heq] at hmem

theorem step_size (w : World) : (World.step w).size = w.size := rfl

theorem step_rules (w : World) : (World.step w).rules = w.rules := rfl

theorem stepInv_step (w : World) (h : StepInv w) : StepInv (World.step w) := by
  obtain ⟨⟨hN, hdl, hpl, hcl, hnl⟩, hJ, hE, hK⟩ := h
  have hWF' : WF (World.step w) := by
    refine ⟨hN, ?_, ?_, ?_, ?_⟩ <;>
      simp [step_data_length, step_prev_length, step_cc_length, step_nc_length,
        step_prev_eq, step_size, hpl, hdl]
  have hNbhdCC : ∀ i, i < w.size * w.size →
      flagAt w.neighborhood_changed_flags i = false →
      ∀ j ∈ neighborIdx w.size (i % w.size) (i / w.size),
        flagAt w.cell_changed_flags j = false := by
    intro i hi hf j hj
    have he := hE i hi
    rw [hf] at he
    have hall := List.any_eq_false.mp he.symm
    have := hall j hj
    exact Bool.eq_false_iff.mpr this
  have hCCself : ∀ i, i < w.size * w.size →
      flagAt w.neighborhood_changed_flags i = false →
      flagAt w.cell_changed_flags i = false := by
    intro i hi hf
    exact hNbhdCC i hi hf i (center_self_mem w i hN hi)
  have hB : ∀ i, i < w.size * w.size →
      flagAt w.neighborhood_changed_flags i = false →
      valAt (World.step w).data i = valAt w.data i := by
    intro i hi hf
    rw [step_data_at w i (by omega)]
    rw [hf]
    simp only [Bool.false_eq_true, if_false]
    exact (hJ i hi (hCCself i hi hf)).symm
  have hT : ∀ i, i < w.size * w.size →
      ∃ v, compute_transition w.data w.size (i % w.size, i / w.size) w.rules = some v := by
    intro i hi
    exact compute_transition_isSome w.data w.size _ _ w.rules
      (Nat.mod_lt _ hN) (Nat.div_lt_of_lt_mul hi) hdl
  have hA : ∀ j, j < w.size * w.size →
      flagAt (World.step w).cell_changed_flags j = false →
      valAt (World.step w).data j = valAt w.data j := by
    intro j hj hf
    rw [step_cc_at w j (by omega)] at hf
    rw [step_data_at w j (by omega)]
    cases hnc : flagAt w.neighborhood_changed_flags j with
    | false =>
      simp only [Bool.false_eq_true, if_false]
      exact (hJ j hj (hCCself j hj hnc)).symm
    | true =>
      simp [hnc] at hf
      simpa using hf
  have hE' : InvErosion (World.step w) := by
    intro i hi
    exact step_nc_at w i (by simp only [hpl]; exact hi)
  have hJ' : InvBuffersAgree (World.step w) := by
    intro i hi hf
    rw [step_prev_eq]
    exact hA i hi hf
  have hK' : InvStable (World.step w) := by
    intro i hi hf
    simp only [step_size, step_rules] at hi ⊢
    have hx : i % w.size < w.size := Nat.mod_lt _ hN
    have hy : i / w.size < w.size := Nat.div_lt_of_lt_mul hi
    have hccall : ∀ j ∈ neighborIdx w.size (i % w.size) (i / w.size),
        flagAt (World.step w).cell_changed_flags j = false := by
      intro j hj
      have he := hE' i hi
      rw [hf] at he
      have hall := List.any_eq_false.mp he.symm
      exact Bool.eq_false_iff.mpr (hall j hj)
    have hagree : ∀ j ∈ neighborIdx w.size (i % w.size) (i / w.size),
        (World.step w).data[j]? = w.data[j]? := by
      intro j hj
      have hjlt : j < w.size * w.size := neighborIdx_lt w.size _ _ hx hy j hj
      have h1 : j < (World.step w).data.length := by
        rw [step_data_length, hpl]; exact hjlt
      have h2 : j < w.data.length := by rw [hdl]; exact hjlt
      rw [valAt_getElem? h1, valAt_getElem? h2, hA j hjlt (hccall j hj)]
    have hcong := compute_transition_congr (World.step w).data w.data w.size
      (i % w.size) (i / w.size) w.rules hx hy hagree
    rw [hcong]
    cases hnc : flagAt w.neighborhood_changed_flags i with
    | false =>
      have hKi := hK i hi hnc
      rw [hKi, hB i hi hnc]
    | true =>
      obtain ⟨v, hv⟩ := hT i hi
      have hvi : valAt (World.step w).data i = v := by
        rw [step_data_at w i (by omega), hnc]
        simp [hv]
      rw [hv, hvi]
  exact ⟨hWF', hJ', hE', hK'⟩

theorem flagAt_replicate_true {n i : Nat} (h : i < n) :
    flagAt (List.replicate n true) i = true := by
  simp [flagAt, List.getD, List.getElem?_replicate, h]

theorem isPow2_pos {n : Nat} (h : isPow2 n = true) : 0 < n := by
  rcases Nat.eq_zero_or_pos n with h0 | h0
  · subst h0; exact absurd h (by decide)
  · exact h0

theorem new?_some {world_size symbol_count avg : Nat} {rng : Nat → Nat} {w : World}
    (h : World.new? world_size symbol_count avg rng = some w) :
    w.size = world_size ∧
    w.data = List.replicate (world_size * world_size) 0 ∧
    w.prev_data = List.replicate (world_size * world_size) 0 ∧
    w.cell_changed_flags = List.replicate (world_size * world_size) true ∧
    w.neighborhood_changed_flags = List.replicate (world_size * world_size) true ∧
    w.symbol_count = symbol_count ∧
    w.symbol_to_color = (genColors symbol_count ⟨rng, 0⟩).1 ∧
    w.rules = (genRules symbol_count avg (ruleCountOf symbol_count avg)
      (genColors symbol_count ⟨rng, 0⟩).2).1 ∧
    isPow2 world_size = true ∧ avg < symbol_count := by
  simp [World.new?] at h
  obtain ⟨hpow, hlt, hne, hw⟩ := h
  subst hw
  exact ⟨rfl, rfl, rfl, rfl, rfl, rfl, rfl, rfl, hpow, hlt⟩

theorem stepInv_of_all_true (w : World) (hWF : WF w)
    (hcc : ∀ i < w.size * w.size, flagAt w.cell_changed_flags i = true)
    (hnc : ∀ i < w.size * w.size, flagAt w.neighborhood_changed_flags i = true) :
    StepInv w := by
  have hN : 0 < w.size := hWF.1
  refine ⟨hWF, ?_, ?_, ?_⟩
  · intro i hi hf
    rw [hcc i hi] at hf
    simp at hf
  · intro i hi
    rw [hnc i hi]
    symm
    rw [List.any_eq_true]
    exact ⟨i, center_self_mem w i hN hi, hcc i hi⟩
  · intro i hi hf
    rw [hnc i hi] at hf
    simp at hf

theorem new?_stepInv {world_size symbol_count avg : Nat} {rng : Nat → Nat} {w : World}
    (h : World.new? world_size symbol_count avg rng = some w) : StepInv w := by
  obtain ⟨hs, hd, hp, hc, hn, _, _, _, hpow, _⟩ := new?_some h
  have hN : 0 < w.size := hs ▸ isPow2_pos hpow
  have hWF : WF w := by
    refine ⟨hN, ?_, ?_, ?_, ?_⟩ <;>
      simp [hd, hp, hc, hn, hs, List.length_replicate]
  apply stepInv_of_all_true w hWF
  · intro i hi
    rw [hc]
    exact flagAt_replicate_true (by rw [hs] at hi; exact hi)
  · intro i hi
    rw [hn]
    exact flagAt_replicate_true (by rw [hs] at hi; exact hi)

theorem randomize_size (w : World) (rand : Nat → Nat) :
    (World.randomize w rand).size = w.size := rfl

theorem randomize_data_length (w : World) (rand : Nat → Nat) :
    (World.randomize w rand).data.length = w.data.length := by
  simp [World.randomize]

theorem randomize_stepInv {world_size symbol_count avg : Nat} {rng rand : Nat → Nat}
    {w : World} (h : World.new? world_size symbol_count avg rng = some w) :
    StepInv (World.randomize w rand) := by
  obtain ⟨hs, hd, hp, hc, hn, _, _, _, hpow, _⟩ := new?_some h
  have hN : 0 < w.size := hs ▸ isPow2_pos hpow
  have hWF : WF (World.randomize w rand) := by
    refine ⟨hN, ?_, ?_, ?_, ?_⟩ <;>
      simp [World.randomize, hd, hp, hc, hn, hs, List.length_replicate]
  apply stepInv_of_all_true _ hWF
  · intro i hi
    show flagAt w.cell_changed_flags i = true
    rw [hc]
    exact flagAt_replicate_true (by rw [randomize_size, hs] at hi; exact hi)
  · intro i hi
    show flagAt w.neighborhood_changed_flags i = true
    rw [hn]
    exact flagAt_replicate_true (by rw [randomize_size, hs] at hi; exact hi)

/-- The states the engine can reach: a constructed `World`, optionally
randomized, then stepped any number of times (the exact lifecycle of the
exploration driver in `main`). -/
inductive Reachable : World → Prop where
  | base (world_size symbol_count avg : Nat) (rng : Nat → Nat) (w : World) :
      World.new? world_size symbol_count avg rng = some w → Reachable w
  | randomized (world_size symbol_count avg : Nat) (rng rand : Nat → Nat) (w : World) :
      World.new? world_size symbol_count avg rng = some w →
      Reachable (World.randomize w rand)
  | stepped (w : World) : Reachable w → Reachable (World.step w)

theorem reachable_stepInv {w : World} (h : Reachable w) : StepInv w := by
  induction h with
  | base _ _ _ _ _ hnew => exact new?_stepInv hnew
  | randomized _ _ _ _ _ _ hnew => exact randomize_stepInv hnew
  | stepped w' _ ih => exact stepInv_step w' ih

/-- C1 — Dirty-flag soundness of the skip optimization: for every `World`
reachable by construction, optional `randomize()`, and repeated `step()`
calls, and every in-range cell `i`, if every cell of `i`'s toroidal 3x3
neighborhood has `cell_changed = false` (equivalently, its
`neighborhood_changed` flag is false entering `step()`, first conjunct), then
the stale write-buffer value at `i` already equals the current value (second
conjunct), the value of cell `i` after the next `step()` equals its value
before it (third conjunct), and that value is exactly what `compute_transition`
would produce (fourth conjunct) — a skipped cell is never stale. -/
theorem dirty_flag_skip_sound (w : World) (hr : Reachable w) (i : Nat)
    (hi : i < w.size * w.size)
    (hquiet : ∀ j ∈ neighborIdx w.size (i % w.size) (i / w.size),
      flagAt w.cell_changed_flags j = false) :
    flagAt w.neighborhood_changed_flags i = false ∧
    valAt w.prev_data i = valAt w.data i ∧
    valAt (World.step w).data i = valAt w.data i ∧
    compute_transition w.data w.size (i % w.size, i / w.size) w.rules =
      some (valAt w.data i) := by
  obtain ⟨⟨hN, hdl, hpl, hcl, hnl⟩, hJ, hE, hK⟩ := reachable_stepInv hr
  have hnc : flagAt w.neighborhood_changed_flags i = false := by
    rw [hE i hi, List.any_eq_false]
    intro j hj
    simp [hquiet j hj]
  have hccc : flagAt w.cell_changed_flags i = false :=
    hquiet i (center_self_mem w i hN hi)
  have hJD : valAt w.prev_data i = valAt w.data i := (hJ i hi hccc).symm
  have hstep : valAt (World.step w).data i = valAt w.data i := by
    rw [step_data_at w i (by omega), hnc]
    simp only [Bool.false_eq_true, if_false]
    exact hJD
  exact ⟨hnc, hJD, hstep, hK i hi hnc⟩

/-- A concrete constructed world: `World::new(1, 4, 3, seed)` with a draw
oracle that always returns 0 (so every rule needs all four symbols and
outputs 0).  The calibration loop settles at 8 rules. -/
def c1World : World := {
  size := 1
  data := [0]
  prev_data := [0]
  cell_changed_flags := [true]
  neighborhood_changed_flags := [true]
  symbol_count := 4
  symbol_to_color := [(0, 0, 0), (0, 0, 0), (0, 0, 0), (0, 0, 0)]
  rules := List.replicate 8 ⟨[0, 1, 2, 3], 0⟩ }

theorem c1World_new : World.new? 1 4 3 (fun _ => 0) = some c1World := by decide

/-- Witness for C1 at the reachable world `step c1World`, whose single cell is
quiescent after the first generation. -/
theorem dirty_flag_skip_sound_witness :
    flagAt (World.step c1World).neighborhood_changed_flags 0 = false ∧
    valAt (World.step (World.step c1World)).data 0 = valAt (World.step c1World).data 0 := by
  have hr : Reachable (World.step c1World) :=
    Reachable.stepped _ (Reachable.base 1 4 3 (fun _ => 0) c1World c1World_new)
  have h := dirty_flag_skip_sound (World.step c1World) hr 0 (by decide) (by decide)
  exact ⟨h.1, h.2.2.1⟩

theorem find?_first {α : Type} (p : α → Bool) (l : List α) (d : α) (i : Nat)
    (hi : i < l.length)
    (hb : ∀ j, j < i → p (l.getD j d) = false)
    (hm : p (l.getD i d) = true) :
    l.find? p = some (l.getD i d) := by
  induction l generalizing i with
  | nil => simp at hi
  | cons a t ih =>
    cases i with
    | zero =>
      have hm' : p a = true := by simpa [List.getD_cons_zero] using hm
      simp [List.find?_cons_of_pos _ hm', List.getD_cons_zero]
    | succ i' =>
      have h0 : p a = false := by
        have := hb 0 (Nat.succ_pos _)
        simpa [List.getD_cons_zero] using this
      rw [List.find?_cons_of_neg _ (by simp [h0])]
      have hi' : i' < t.length := by simpa using hi
      have hb' : ∀ j, j < i' → p (t.getD j d) = false := by
        intro j hj
        have := hb (j + 1) (by omega)
        simpa [List.getD_cons_succ] using this
      have hm' : p (t.getD i' d) = true := by simpa [List.getD_cons_succ] using hm
      simpa [List.getD_cons_succ] using ih i' hi' hb' hm'

/-- C2 — Rule priority (first match wins): if the neighborhood of `(x, y)`
gathers the symbol list `g`, every rule before index `i` fails to match `g`,
and rule `i` matches `g`, then `compute_transition` returns rule `i`'s
`output_symbol` — never a later rule's output. -/
theorem rule_priority_first_match (prev : List Nat) (N x y : Nat)
    (rules : List WorldRule) (g : List Nat) (i : Nat)
    (hg : gather9 prev N x y = some g)
    (hi : i < rules.length)
    (hbefore : ∀ j, j < i → ruleMatches (rules.getD j ⟨[], 0⟩) g = false)
    (hmatch : ruleMatches (rules.getD i ⟨[], 0⟩) g = true) :
    compute_transition prev N (x, y) rules =
      some ((rules.getD i ⟨[], 0⟩).output_symbol) := by
  have hfind := find?_first (fun rule => ruleMatches rule g) rules ⟨[], 0⟩ i hi hbefore hmatch
  simp only [compute_transition]
  rw [show gather9 prev N (x, y).1 (x, y).2 = some g from hg]
  simp only [hfind]

/-- Witness for C2: with two rules where only the second matches the all-zero
neighborhood, the evaluator returns the second rule's output 9. -/
theorem rule_priority_first_match_witness :
    compute_transition [0, 0, 0, 0] 2 (0, 0) [⟨[5], 7⟩, ⟨[0], 9⟩] = some 9 := by
  have h := rule_priority_first_match [0, 0, 0, 0] 2 0 0 [⟨[5], 7⟩, ⟨[0], 9⟩]
    [0, 0, 0, 0, 0, 0, 0, 0, 0] 1 (by decide) (by decide)
    (by intro j hj; interval_cases j; decide) (by decide)
  simpa using h

/-- C3 — Fallback identity: if no rule's `symbols_needed` is contained in the
gathered neighborhood symbols, `compute_transition` returns the previous value
stored at `(x, y)` unchanged. -/
theorem fallback_identity (prev : List Nat) (N x y : Nat)
    (rules : List WorldRule) (g : List Nat)
    (hx : x < N) (hy : y < N) (hlen : prev.length = N * N)
    (hg : gather9 prev N x y = some g)
    (hnone : ∀ r ∈ rules, ruleMatches r g = false) :
    compute_transition prev N (x, y) rules = some (valAt prev (y * N + x)) := by
  have hfind : rules.find? (fun rule => ruleMatches rule g) = none := by
    rw [List.find?_eq_none]
    intro r hr
    simp [hnone r hr]
  simp only [compute_transition]
  rw [show gather9 prev N (x, y).1 (x, y).2 = some g from hg]
  simp only [hfind]
  exact valAt_getElem? (by rw [hlen]; exact row_col_lt N y x hy hx)

/-- Witness for C3: a single rule requiring an absent symbol leaves the
center value 3 unchanged. -/
theorem fallback_identity_witness :
    compute_transition [3, 0, 0, 0] 2 (0, 0) [⟨[5], 7⟩] = some 3 := by
  have h := fallback_identity [3, 0, 0, 0] 2 0 0 [⟨[5], 7⟩]
    [0, 0, 0, 0, 3, 0, 0, 0, 0] (by decide) (by decide) (by decide) (by decide)
    (by intro r hr; simp at hr; subst hr; decide)
  simpa using h

theorem getsAll_eq_map (prev : List Nat) (l : List Nat) (h : ∀ j ∈ l, j < prev.length) :
    getsAll prev l = some (l.map (fun j => valAt prev j)) := by
  induction l with
  | nil => rfl
  | cons i is ih =>
    have hi : i < prev.length := h i (List.mem_cons_self i is)
    have his := ih (fun j hj => h j (List.mem_cons_of_mem i hj))
    simp [getsAll, valAt_getElem? hi, his]

/-- C4 counterexample: with `N = 2` and buffer `[0,1,2,3]`, gathering at
`(0,0)` is defined, but gathering at `(N,N) = (2,2)` dereferences the
unwrapped coordinate `N+1 = 3`, i.e. buffer index `3*2+x ≥ 4`, out of bounds
(a panic in the Rust code) — so no order-independent equality of the two
neighborhoods can hold. -/
theorem toroidal_symmetry_counterexample :
    ¬ ∃ g1 g2 : List Nat,
      gather9 [0, 1, 2, 3] 2 0 0 = some g1 ∧
      gather9 [0, 1, 2, 3] 2 2 2 = some g2 ∧
      Multiset.ofList g1 = Multiset.ofList g2 := by
  rintro ⟨g1, g2, -, hg2, -⟩
  rw [show gather9 [0, 1, 2, 3] 2 2 2 = none from by decide] at hg2
  cases hg2

theorem wrap_m1 (N : Nat) (hN : 1 ≤ N) : wrapCoord N (-1) = (N - 1) % N := by
  unfold wrapCoord
  rw [if_pos (by norm_num), Nat.mod_eq_of_lt (by omega)]

theorem wrap_0 (N : Nat) (hN : 1 ≤ N) : wrapCoord N 0 = N % N := by
  unfold wrapCoord
  rw [if_neg (by norm_num), Nat.mod_self]
  split_ifs <;> rfl

theorem wrap_p1 (N : Nat) (hN : 1 ≤ N) : wrapCoord N 1 = (N + 1) % N := by
  unfold wrapCoord
  rw [if_neg (by norm_num)]
  rcases eq_or_lt_of_le hN with h1 | h1
  · have hN1 : N = 1 := h1.symm
    subst hN1
    decide
  · rw [if_neg (by omega), Nat.add_mod_left, Nat.mod_eq_of_lt h1]
    rfl

/-- Modelled from the spec: the nine values of the 3x3 neighborhood of the
coordinate `(N, N)` with the wraparound understood as genuine toroidal
(mod `N`) reduction — its row/column coordinates `N-1`, `N`, `N+1` reduce to
`(N-1) % N`, `N % N = 0`, `(N+1) % N`.  (The code's single-step wrap rule
maps only `-1` and `N`, leaving `N+1` unwrapped and out of bounds.) -/
def specGatherAtNN (prev : List Nat) (N : Nat) : List Nat :=
  [valAt prev ((N - 1) % N * N + (N - 1) % N),
   valAt prev ((N - 1) % N * N + N % N),
   valAt prev ((N - 1) % N * N + (N + 1) % N),
   valAt prev (N % N * N + (N - 1) % N),
   valAt prev (N % N * N + N % N),
   valAt prev (N % N * N + (N + 1) % N),
   valAt prev ((N + 1) % N * N + (N - 1) % N),
   valAt prev ((N + 1) % N * N + N % N),
   valAt prev ((N + 1) % N * N + (N + 1) % N)]

/-- C4 amended — Toroidal symmetry after full reduction: for every grid side
`N ≥ 1` and buffer of length `N²`, the nine symbols gathered at `(0,0)` are
exactly (pointwise, hence order-independently) the nine values of the
neighborhood of `(N,N)` under genuine mod-`N` toroidal wraparound.  The
equality with a direct gather at `(N,N)` fails only because the code's wrap
rule leaves coordinate `N+1` unmapped (see the counterexample). -/
theorem toroidal_symmetry_amended (prev : List Nat) (N : Nat) (hN : 1 ≤ N)
    (hlen : prev.length = N * N) :
    gather9 prev N 0 0 = some (specGatherAtNN prev N) := by
  have hb : ∀ j ∈ neighborIdx N 0 0, j < prev.length := fun j hj => by
    rw [hlen]; exact neighborIdx_lt N 0 0 (by omega) (by omega) j hj
  rw [gather9, getsAll_eq_map prev _ hb]
  congr 1
  simp only [neighborIdx, nineOffsets, List.map_cons, List.map_nil, specGatherAtNN,
    Nat.cast_zero, zero_add, add_zero]
  rw [wrap_m1 N hN, wrap_0 N hN, wrap_p1 N hN]

/-- Witness for the amended C4 at `N = 2`, buffer `[0,1,2,3]`. -/
theorem toroidal_symmetry_amended_witness :
    gather9 [0, 1, 2, 3] 2 0 0 = some (specGatherAtNN [0, 1, 2, 3] 2) :=
  toroidal_symmetry_amended [0, 1, 2, 3] 2 (by decide) (by decide)

theorem list_eq_of_getD {α : Type} (d : α) {l₁ l₂ : List α} (hlen : l₁.length = l₂.length)
    (h : ∀ i < l₁.length, l₁.getD i d = l₂.getD i d) : l₁ = l₂ := by
  apply List.ext_getElem?
  intro i
  by_cases hi : i < l₁.length
  · have h2 : i < l₂.length := by omega
    rw [List.getElem?_eq_getElem hi, List.getElem?_eq_getElem h2]
    have hg := h i hi
    rw [List.getD_eq_getElem l₁ d hi, List.getD_eq_getElem l₂ d h2] at hg
    rw [hg]
  · rw [List.getElem?_eq_none (by omega), List.getElem?_eq_none (by omega)]

theorem world_eq_of_fields {a b : World} (h1 : a.size = b.size) (h2 : a.data = b.data)
    (h3 : a.prev_data = b.prev_data) (h4 : a.cell_changed_flags = b.cell_changed_flags)
    (h5 : a.neighborhood_changed_flags = b.neighborhood_changed_flags)
    (h6 : a.symbol_count = b.symbol_count) (h7 : a.symbol_to_color = b.symbol_to_color)
    (h8 : a.rules = b.rules) : a = b := by
  cases a; cases b; simp_all

theorem ruleMatches_false_of_missing (r : WorldRule) (g : List Nat) (t : Nat)
    (ht : t ∈ r.symbols_needed) (hg : t ∉ g) : ruleMatches r g = false := by
  unfold ruleMatches
  rw [List.all_eq_false]
  exact ⟨t, ht, by simpa using hg⟩

/-- C5 — Quiescence is reached and preserved: for a grid whose cells all hold
symbol `s`, with all `neighborhood_changed` flags set (as after construction),
under a RuleSet in which every rule needs at least one symbol different from
`s`, one `step()` produces a generation in which every `cell_changed` flag is
false, and every further `step()` leaves the whole world (value buffer and all
flags) unchanged. -/
theorem quiescence_reached_and_preserved (w : World) (s : Nat) (hWF : WF w)
    (hdata : ∀ i < w.size * w.size, valAt w.data i = s)
    (hnc : ∀ i < w.size * w.size, flagAt w.neighborhood_changed_flags i = true)
    (hrules : ∀ r ∈ w.rules, ∃ t ∈ r.symbols_needed, t ≠ s) :
    (∀ i < w.size * w.size, flagAt (World.step w).cell_changed_flags i = false) ∧
    ∀ k, World.step^[k] (World.step w) = World.step w := by
  obtain ⟨hN, hdl, hpl, hcl, hnl⟩ := hWF
  have htrans : ∀ i, i < w.size * w.size →
      compute_transition w.data w.size (i % w.size, i / w.size) w.rules = some s := by
    intro i hi
    have hx : i % w.size < w.size := Nat.mod_lt _ hN
    have hy : i / w.size < w.size := Nat.div_lt_of_lt_mul hi
    have hball : ∀ j ∈ neighborIdx w.size (i % w.size) (i / w.size), j < w.data.length := by
      intro j hj
      rw [hdl]
      exact neighborIdx_lt w.size _ _ hx hy j hj
    simp only [compute_transition, gather9]
    rw [getsAll_eq_map w.data _ hball]
    have hfind : w.rules.find? (fun rule => ruleMatches rule
        ((neighborIdx w.size (i % w.size) (i / w.size)).map (fun j => valAt w.data j)))
        = none := by
      rw [List.find?_eq_none]
      intro r hr
      obtain ⟨t, ht, hts⟩ := hrules r hr
      have hnotmem : t ∉ (neighborIdx w.size (i % w.size) (i / w.size)).map
          (fun j => valAt w.data j) := by
        intro hmem
        obtain ⟨j, hj, hv⟩ := List.mem_map.mp hmem
        have hjn : j < w.size * w.size := neighborIdx_lt w.size _ _ hx hy j hj
        rw [hdata j hjn] at hv
        exact hts hv.symm
      simp [ruleMatches_false_of_missing r _ t ht hnotmem]
    simp only [hfind]
    have hidx : i / w.size * w.size + i % w.size = i := by
      rw [Nat.mul_comm]; exact Nat.div_add_mod i w.size
    rw [hidx, valAt_getElem? (by rw [hdl]; exact hi), hdata i hi]
  have h1 : ∀ i, i < w.size * w.size → valAt (World.step w).data i = s := by
    intro i hi
    rw [step_data_at w i (by omega), hnc i hi]
    simp [htrans i hi]
  have h2 : ∀ i, i < w.size * w.size →
      flagAt (World.step w).cell_changed_flags i = false := by
    intro i hi
    rw [step_cc_at w i (by omega), hnc i hi]
    simp [htrans i hi, hdata i hi]
  have h3 : ∀ i, i < w.size * w.size →
      flagAt (World.step w).neighborhood_changed_flags i = false := by
    intro i hi
    have hx : i % w.size < w.size := Nat.mod_lt _ hN
    have hy : i / w.size < w.size := Nat.div_lt_of_lt_mul hi
    rw [step_nc_at w i (by omega), List.any_eq_false]
    intro j hj
    simp [h2 j (neighborIdx_lt w.size _ _ hx hy j hj)]
  have h4 : ∀ i, i < w.size * w.size → valAt (World.step w).prev_data i = s := by
    intro i hi
    rw [step_prev_eq]
    exact hdata i hi
  refine ⟨h2, ?_⟩
  have hfix : World.step (World.step w) = World.step w := by
    have hlen1 : (World.step w).prev_data.length = w.size * w.size := by
      rw [step_prev_eq, hdl]
    have hd : (World.step (World.step w)).data = (World.step w).data := by
      apply list_eq_of_getD 0
      · rw [step_data_length, step_data_length, step_prev_eq, hdl, hpl]
      · intro i hi
        have hin : i < w.size * w.size := by
          rw [step_data_length, hlen1] at hi
          exact hi
        have hskip : valAt (World.step (World.step w)).data i
            = valAt (World.step w).prev_data i := by
          rw [step_data_at (World.step w) i (by omega), h3 i hin]
          simp
        show valAt (World.step (World.step w)).data i = valAt (World.step w).data i
        rw [hskip, h4 i hin, h1 i hin]
    have hp : (World.step (World.step w)).prev_data = (World.step w).prev_data := by
      rw [step_prev_eq]
      apply list_eq_of_getD 0
      · rw [step_data_length, step_prev_eq, hdl, hpl]
      · intro i hi
        have hin : i < w.size * w.size := by rw [step_data_length, hpl] at hi; exact hi
        show valAt (World.step w).data i = valAt (World.step w).prev_data i
        rw [h1 i hin, h4 i hin]
    have hc : (World.step (World.step w)).cell_changed_flags
        = (World.step w).cell_changed_flags := by
      apply list_eq_of_getD false
      · rw [step_cc_length, step_cc_length, step_prev_eq, hdl, hpl]
      · intro i hi
        have hin : i < w.size * w.size := by rw [step_cc_length, hlen1] at hi; exact hi
        show flagAt (World.step (World.step w)).cell_changed_flags i
            = flagAt (World.step w).cell_changed_flags i
        rw [step_cc_at (World.step w) i (by omega), h3 i hin, h2 i hin]
        simp
    have hn2 : (World.step (World.step w)).neighborhood_changed_flags
        = (World.step w).neighborhood_changed_flags := by
      apply list_eq_of_getD false
      · rw [step_nc_length, step_nc_length, step_prev_eq, hdl, hpl]
      · intro i hi
        have hin : i < w.size * w.size := by rw [step_nc_length, hlen1] at hi; exact hi
        show flagAt (World.step (World.step w)).neighborhood_changed_flags i
            = flagAt (World.step w).neighborhood_changed_flags i
        rw [step_nc_at (World.step w) i (by omega), h3 i hin, List.any_eq_false]
        intro j hj
        have hx : i % w.size < w.size := Nat.mod_lt _ hN
        have hy : i / w.size < w.size := Nat.div_lt_of_lt_mul hin
        have hjn : j < w.size * w.size := by
          have := neighborIdx_lt w.size (i % (World.step w).size) (i / (World.step w).size)
            hx hy j hj
          exact this
        rw [hc]
        simp [h2 j hjn]
    exact world_eq_of_fields rfl hd hp hc hn2 rfl rfl rfl
  intro k
  exact Function.iterate_fixed hfix k

/-- A single-cell world holding symbol 5 with construction-state flags and one
rule that needs the absent symbol 1. -/
def c5World : World :=
  ⟨1, [5], [0], [true], [true], 6, [(0, 0, 0)], [⟨[1], 0⟩]⟩

/-- Witness for C5 at `c5World`: after one step no cell changed, and two more
steps leave the stepped world fixed. -/
theorem quiescence_reached_and_preserved_witness :
    flagAt (World.step c5World).cell_changed_flags 0 = false ∧
    World.step^[2] (World.step c5World) = World.step c5World := by
  have h := quiescence_reached_and_preserved c5World 5
    (by unfold WF; decide) (by decide) (by decide) (by decide)
  exact ⟨h.1 0 (by decide), h.2 2⟩

theorem calibLoop_spec (bn bd : Nat) : ∀ fuel start M : Nat, start ≤ M → M < start + fuel →
    1000 * bn ^ 2 ^ M ≤ bd ^ 2 ^ M →
    start ≤ calibLoop bn bd fuel start ∧
    calibLoop bn bd fuel start ≤ M ∧
    1000 * bn ^ 2 ^ calibLoop bn bd fuel start ≤ bd ^ 2 ^ calibLoop bn bd fuel start ∧
    ∀ j, start ≤ j → j < calibLoop bn bd fuel start →
      ¬ 1000 * bn ^ 2 ^ j ≤ bd ^ 2 ^ j := by
  intro fuel
  induction fuel with
  | zero =>
    intro start M h1 h2 _
    omega
  | succ fuel ih =>
    intro start M h1 h2 hM
    by_cases hc : 1000 * bn ^ 2 ^ start ≤ bd ^ 2 ^ start
    · have heq : calibLoop bn bd (fuel + 1) start = start := by
        simp only [calibLoop, if_pos hc]
      rw [heq]
      exact ⟨Nat.le_refl _, h1, hc, fun j hj1 hj2 => by omega⟩
    · have heq : calibLoop bn bd (fuel + 1) start = calibLoop bn bd fuel (start + 1) := by
        simp only [calibLoop, if_neg hc]
      have hM1 : start + 1 ≤ M := by
        rcases Nat.eq_or_lt_of_le h1 with h | h
        · exact absurd (h ▸ hM) hc
        · exact h
      obtain ⟨g1, g2, g3, g4⟩ := ih (start + 1) M hM1 (by omega) hM
      rw [heq]
      refine ⟨by omega, g2, g3, ?_⟩
      intro j hj1 hj2
      rcases Nat.eq_or_lt_of_le hj1 with h | h
      · exact h ▸ hc
      · exact g4 j h hj2

theorem pow_succ_ge (a j : Nat) : a ^ j * (a + (j + 1)) ≤ (a + 1) ^ (j + 1) := by
  induction j with
  | zero => simp
  | succ j ih =>
    calc a ^ (j + 1) * (a + (j + 2))
        = a ^ (j + 1) * (a + (j + 1)) + a ^ (j + 1) := by ring
      _ ≤ a ^ (j + 1) * (a + (j + 1)) + a ^ j * (a + (j + 1)) := by
          have : a ^ (j + 1) ≤ a ^ j * (a + (j + 1)) := by
            rw [pow_succ]
            exact Nat.mul_le_mul_left _ (by omega)
          omega
      _ = (a + 1) * (a ^ j * (a + (j + 1))) := by ring
      _ ≤ (a + 1) * (a + 1) ^ (j + 1) := Nat.mul_le_mul_left _ ih
      _ = (a + 1) ^ (j + 2) := by ring

theorem calib_cond_of_big (bn bd k : Nat) (hlt : bn < bd) (hk : 999 * bn < k) :
    1000 * bn ^ k ≤ bd ^ k := by
  obtain ⟨m, rfl⟩ : ∃ m, k = m + 1 := ⟨k - 1, by omega⟩
  rcases Nat.eq_zero_or_pos bn with h0 | h0
  · subst h0
    simp [Nat.zero_pow]
  · have hbd : bn + 1 ≤ bd := hlt
    calc 1000 * bn ^ (m + 1) = bn ^ m * (1000 * bn) := by ring
      _ ≤ bn ^ m * (bn + (m + 1)) := Nat.mul_le_mul_left _ (by omega)
      _ ≤ (bn + 1) ^ (m + 1) := pow_succ_ge bn m
      _ ≤ bd ^ (m + 1) := Nat.pow_le_pow_left hbd _

theorem calibQ_pos (c : Nat) (hc : 1 ≤ c) : 1 ≤ calibQ c := by
  unfold calibQ
  have : (c - 1) ^ 9 < c ^ 9 := Nat.pow_lt_pow_left (by omega) (by omega)
  omega

theorem calibBd_pos (c a : Nat) (hc : 1 ≤ c) : 1 ≤ calibBd c a := by
  unfold calibBd
  exact Nat.one_le_pow _ _ (Nat.pos_pow_of_pos _ (by omega))

theorem calibBn_lt_calibBd (c a : Nat) (hc : 1 ≤ c) : calibBn c a < calibBd c a := by
  unfold calibBn
  have h1 : 1 ≤ calibQ c ^ a := Nat.one_le_pow _ _ (calibQ_pos c hc)
  have h2 : 1 ≤ calibBd c a := calibBd_pos c a hc
  have h3 : calibQ c ^ a ≤ calibBd c a := by
    unfold calibBd
    calc calibQ c ^ a ≤ (c ^ 9) ^ a :=
          Nat.pow_le_pow_left (Nat.sub_le _ _) _
      _ = calibBd c a := rfl
  unfold calibBd at h2 h3 ⊢
  omega

theorem calib_cross (c a a' : Nat) (hc : 1 ≤ c) (ha : a ≤ a') :
    calibBn c a * calibBd c a' ≤ calibBn c a' * calibBd c a := by
  have hQA : calibQ c ≤ c ^ 9 := Nat.sub_le _ _
  have hkey : calibQ c ^ a' * (c ^ 9) ^ a ≤ calibQ c ^ a * (c ^ 9) ^ a' := by
    have h1 : calibQ c ^ a' = calibQ c ^ a * calibQ c ^ (a' - a) := by
      rw [← pow_add]; congr 1; omega
    have h2 : (c ^ 9) ^ a' = (c ^ 9) ^ a * (c ^ 9) ^ (a' - a) := by
      rw [← pow_add]; congr 1; omega
    rw [h1, h2]
    calc calibQ c ^ a * calibQ c ^ (a' - a) * (c ^ 9) ^ a
        ≤ calibQ c ^ a * (c ^ 9) ^ (a' - a) * (c ^ 9) ^ a := by
          apply Nat.mul_le_mul_right
          exact Nat.mul_le_mul_left _ (Nat.pow_le_pow_left hQA _)
      _ = calibQ c ^ a * ((c ^ 9) ^ a * (c ^ 9) ^ (a' - a)) := by ring
  unfold calibBn calibBd
  rw [Nat.sub_mul, Nat.sub_mul]
  have hX : (c ^ 9) ^ a * (c ^ 9) ^ a' = (c ^ 9) ^ a' * (c ^ 9) ^ a := Nat.mul_comm _ _
  rw [hX]
  exact Nat.sub_le_sub_left hkey _

theorem calib_cond_transfer (c a a' m : Nat) (hc : 1 ≤ c) (ha : a ≤ a')
    (hcond : 1000 * calibBn c a' ^ 2 ^ m ≤ calibBd c a' ^ 2 ^ m) :
    1000 * calibBn c a ^ 2 ^ m ≤ calibBd c a ^ 2 ^ m := by
  have hcross := calib_cross c a a' hc ha
  have hpow : (calibBn c a * calibBd c a') ^ 2 ^ m ≤ (calibBn c a' * calibBd c a) ^ 2 ^ m :=
    Nat.pow_le_pow_left hcross _
  rw [mul_pow, mul_pow] at hpow
  have hbd' : 0 < calibBd c a' ^ 2 ^ m :=
    Nat.pos_pow_of_pos _ (calibBd_pos c a' hc)
  have hchain : 1000 * calibBn c a ^ 2 ^ m * calibBd c a' ^ 2 ^ m ≤
      calibBd c a ^ 2 ^ m * calibBd c a' ^ 2 ^ m := by
    calc 1000 * calibBn c a ^ 2 ^ m * calibBd c a' ^ 2 ^ m
        = 1000 * (calibBn c a ^ 2 ^ m * calibBd c a' ^ 2 ^ m) := by ring
      _ ≤ 1000 * (calibBn c a' ^ 2 ^ m * calibBd c a ^ 2 ^ m) := Nat.mul_le_mul_left _ hpow
      _ = (1000 * calibBn c a' ^ 2 ^ m) * calibBd c a ^ 2 ^ m := by ring
      _ ≤ calibBd c a' ^ 2 ^ m * calibBd c a ^ 2 ^ m := Nat.mul_le_mul_right _ hcond
      _ = calibBd c a ^ 2 ^ m * calibBd c a' ^ 2 ^ m := Nat.mul_comm _ _
  exact Nat.le_of_mul_le_mul_right hchain hbd'

/-- C6 — Calibration monotonicity: with `symbol_count ≥ 2` fixed and the
threshold 0.999 fixed, the calibrated rule count produced by the doubling loop
is nondecreasing in `avg_symbols_per_rule` (for `avg' < symbol_count`). -/
theorem calibration_monotonic (symbol_count avg avg' : Nat)
    (hc : 2 ≤ symbol_count) (ha : avg ≤ avg') (ha' : avg' < symbol_count) :
    ruleCountOf symbol_count avg ≤ ruleCountOf symbol_count avg' := by
  have hc1 : 1 ≤ symbol_count := by omega
  have hlt : calibBn symbol_count avg < calibBd symbol_count avg :=
    calibBn_lt_calibBd symbol_count avg hc1
  have hlt' : calibBn symbol_count avg' < calibBd symbol_count avg' :=
    calibBn_lt_calibBd symbol_count avg' hc1
  have hMex : ∀ b d : Nat, b < d →
      1000 * b ^ 2 ^ (999 * b + 1) ≤ d ^ 2 ^ (999 * b + 1) := by
    intro b d hbd
    apply calib_cond_of_big b d _ hbd
    have := Nat.lt_two_pow (999 * b + 1)
    omega
  obtain ⟨hs1, hs2, hs3, hs4⟩ := calibLoop_spec (calibBn symbol_count avg)
    (calibBd symbol_count avg) (999 * calibBn symbol_count avg + 2) 1
    (999 * calibBn symbol_count avg + 1) (by omega) (by omega)
    (hMex _ _ hlt)
  obtain ⟨ht1, ht2, ht3, ht4⟩ := calibLoop_spec (calibBn symbol_count avg')
    (calibBd symbol_count avg') (999 * calibBn symbol_count avg' + 2) 1
    (999 * calibBn symbol_count avg' + 1) (by omega) (by omega)
    (hMex _ _ hlt')
  have hle : calibLoop (calibBn symbol_count avg) (calibBd symbol_count avg)
      (999 * calibBn symbol_count avg + 2) 1 ≤
      calibLoop (calibBn symbol_count avg') (calibBd symbol_count avg')
      (999 * calibBn symbol_count avg' + 2) 1 := by
    by_contra hgt
    push_neg at hgt
    have hcondm := calib_cond_transfer symbol_count avg avg' _ hc1 ha ht3
    exact hs4 _ ht1 hgt hcondm
  unfold ruleCountOf
  exact Nat.pow_le_pow_right (by omega) hle

/-- Witness for C6: at symbol_count 6 the calibrated rule count for
avg_symbols_per_rule 2 is at most the one for 5. -/
theorem calibration_monotonic_witness : ruleCountOf 6 2 ≤ ruleCountOf 6 5 :=
  calibration_monotonic 6 2 5 (by decide) (by decide) (by decide)

theorem isPow2_iff (n : Nat) : isPow2 n = true ↔ ∃ k, n = 2 ^ k := by
  unfold isPow2
  rw [List.any_eq_true]
  constructor
  · rintro ⟨k, -, hk⟩
    simp at hk
    exact ⟨k, hk.symm⟩
  · rintro ⟨k, rfl⟩
    refine ⟨k, List.mem_range.mpr ?_, by simp⟩
    have := Nat.lt_two_pow k
    omega

theorem genRules_foldl_length (c a : Nat) (l : List Nat) :
    ∀ acc : List WorldRule × RngState,
      (l.foldl (fun acc _ =>
        let r := genRule c a acc.2
        (acc.1 ++ [r.1], r.2)) acc).1.length = acc.1.length + l.length := by
  induction l with
  | nil => intro acc; simp
  | cons x t ih =>
    intro acc
    rw [List.foldl_cons, ih]
    simp
    omega

theorem genRules_length (c a rc : Nat) (s : RngState) :
    (genRules c a rc s).1.length = rc := by
  unfold genRules
  rw [genRules_foldl_length]
  simp

/-- C9 — Construction error handling: with `symbol_count ≥ 2`, `World::new`
fails exactly when the grid side is not a power of two or
`avg_symbols_per_rule / symbol_count ≥ 1` (i.e. `symbol_count ≤ avg`), and
otherwise succeeds with a non-empty RuleSet of the calibrated length and with
the requested size and symbol count unmodified (no silent clamping). -/
theorem construction_error_handling (world_size symbol_count avg : Nat) (rng : Nat → Nat)
    (hc : 2 ≤ symbol_count) :
    (World.new? world_size symbol_count avg rng = none ↔
      (¬ ∃ k, world_size = 2 ^ k) ∨ symbol_count ≤ avg) ∧
    ∀ w, World.new? world_size symbol_count avg rng = some w →
      w.rules ≠ [] ∧ w.rules.length = ruleCountOf symbol_count avg ∧
      w.size = world_size ∧ w.symbol_count = symbol_count := by
  constructor
  · by_cases hp : isPow2 world_size
    · by_cases hlt : avg < symbol_count
      · have hlen := genRules_length symbol_count avg (ruleCountOf symbol_count avg)
          (genColors symbol_count ⟨rng, 0⟩).2
        have hpos : 0 < ruleCountOf symbol_count avg := Nat.pos_pow_of_pos _ (by omega)
        have hne : (genRules symbol_count avg (ruleCountOf symbol_count avg)
            (genColors symbol_count ⟨rng, 0⟩).2).1.isEmpty = false := by
          rw [List.isEmpty_eq_false_iff_exists_mem]
          have : 0 < (genRules symbol_count avg (ruleCountOf symbol_count avg)
              (genColors symbol_count ⟨rng, 0⟩).2).1.length := by omega
          obtain ⟨x, hx⟩ := List.exists_mem_of_length_pos this
          exact ⟨x, hx⟩
        constructor
        · intro hnone
          rw [show World.new? world_size symbol_count avg rng =
            some { size := world_size
                   data := List.replicate (world_size * world_size) 0
                   prev_data := List.replicate (world_size * world_size) 0
                   cell_changed_flags := List.replicate (world_size * world_size) true
                   neighborhood_changed_flags := List.replicate (world_size * world_size) true
                   symbol_count := symbol_count
                   symbol_to_color := (genColors symbol_count ⟨rng, 0⟩).1
                   rules := (genRules symbol_count avg (ruleCountOf symbol_count avg)
                     (genColors symbol_count ⟨rng, 0⟩).2).1 } from by
              simp [World.new?, hp, hlt, hne]] at hnone
          cases hnone
        · rintro (hbad | hbad)
          · exact absurd ((isPow2_iff world_size).mp hp) hbad
          · omega
      · constructor
        · intro _
          right
          omega
        · intro _
          simp [World.new?, hlt]
    · constructor
      · intro _
        left
        intro hex
        exact hp ((isPow2_iff world_size).mpr hex)
      · intro _
        simp [World.new?, hp]
  · intro w hw
    obtain ⟨hs, -, -, -, -, hsc, -, hr, -, -⟩ := new?_some hw
    have hlen : w.rules.length = ruleCountOf symbol_count avg := by
      rw [hr, genRules_length]
    have hpos : 0 < ruleCountOf symbol_count avg := Nat.pos_pow_of_pos _ (by omega)
    refine ⟨?_, hlen, hs, hsc⟩
    intro hnil
    rw [hnil] at hlen
    simp at hlen
    omega

/-- Witness for C9: side 0 is rejected (not a power of two), avg 5 with
symbol_count 4 is rejected (ratio ≥ 1), and the valid configuration
`(1, 4, 3)` is accepted. -/
theorem construction_error_handling_witness :
    World.new? 0 4 3 (fun _ => 0) = none ∧
    World.new? 1 4 5 (fun _ => 0) = none ∧
    World.new? 1 4 3 (fun _ => 0) ≠ none := by
  have h0 := construction_error_handling 0 4 3 (fun _ => 0) (by decide)
  have h1 := construction_error_handling 1 4 5 (fun _ => 0) (by decide)
  have h2 := construction_error_handling 1 4 3 (fun _ => 0) (by decide)
  refine ⟨?_, ?_, ?_⟩
  · apply h0.1.mpr
    left
    rintro ⟨k, hk⟩
    have := Nat.pos_pow_of_pos k (show 0 < 2 by decide)
    omega
  · exact h1.1.mpr (Or.inr (by decide))
  · intro hn
    rcases h2.1.mp hn with hbad | hbad
    · exact hbad ⟨0, by decide⟩
    · omega

theorem genColors_foldl_length (l : List Nat) :
    ∀ acc : List (Nat × Nat × Nat) × RngState,
      (l.foldl (fun acc _ =>
        let r := drawRange acc.2 0 255
        let g := drawRange r.2 0 255
        let b := drawRange g.2 0 255
        (acc.1 ++ [(r.1, g.1, b.1)], b.2)) acc).1.length = acc.1.length + l.length := by
  induction l with
  | nil => intro acc; simp
  | cons x t ih =>
    intro acc
    rw [List.foldl_cons, ih]
    simp
    omega

theorem genColors_length (c : Nat) (s : RngState) : (genColors c s).1.length = c := by
  unfold genColors
  rw [genColors_foldl_length]
  simp

theorem genRule_incl_foldl_mem (c a : Nat) (l : List Nat) :
    ∀ acc : List Nat × RngState, (∀ t ∈ acc.1, t < c) → (∀ x ∈ l, x < c) →
      ∀ t ∈ (l.foldl (fun acc symbol =>
        let r := drawRange acc.2 0 1000
        if r.1 * c < 1000 * a then (acc.1 ++ [symbol], r.2) else (acc.1, r.2)) acc).1,
        t < c := by
  induction l with
  | nil =>
    intro acc hacc _ t ht
    exact hacc t ht
  | cons x xs ih =>
    intro acc hacc hl t ht
    rw [List.foldl_cons] at ht
    refine ih _ ?_ (fun y hy => hl y (List.mem_cons_of_mem x hy)) t ht
    intro u hu
    by_cases hcnd : (drawRange acc.2 0 1000).1 * c < 1000 * a
    · rw [if_pos hcnd] at hu
      simp only [List.mem_append, List.mem_singleton] at hu
      rcases hu with hu | hu
      · exact hacc u hu
      · subst hu
        exact hl _ (List.mem_cons_self _ _)
    · rw [if_neg hcnd] at hu
      exact hacc u hu

theorem drawRange_lt (s : RngState) (c : Nat) (hc : 0 < c) :
    (drawRange s 0 (c - 1)).1 < c := by
  unfold drawRange
  have h1 : c - 1 + 1 - 0 = c := by omega
  simp only [Nat.zero_add, h1]
  exact Nat.mod_lt _ hc

theorem genRule_mem (c a : Nat) (hc : 0 < c) (s : RngState) :
    (∀ t ∈ (genRule c a s).1.symbols_needed, t < c) ∧
    (genRule c a s).1.output_symbol < c := by
  constructor
  · intro t ht
    unfold genRule at ht
    simp only [] at ht
    split at ht
    · simp only [List.mem_singleton] at ht
      subst ht
      exact drawRange_lt _ c hc
    · exact genRule_incl_foldl_mem c a (List.range c) ([], s) (by simp)
        (fun x hx => List.mem_range.mp hx) t ht
  · show (genRule c a s).1.output_symbol < c
    unfold genRule
    exact drawRange_lt _ c hc

theorem genRules_foldl_mem (c a : Nat) (hc : 0 < c) (l : List Nat) :
    ∀ acc : List WorldRule × RngState,
      (∀ r ∈ acc.1, (∀ t ∈ r.symbols_needed, t < c) ∧ r.output_symbol < c) →
      ∀ r ∈ (l.foldl (fun acc _ =>
        let r := genRule c a acc.2
        (acc.1 ++ [r.1], r.2)) acc).1,
        (∀ t ∈ r.symbols_needed, t < c) ∧ r.output_symbol < c := by
  induction l with
  | nil =>
    intro acc hacc r hr
    exact hacc r hr
  | cons x xs ih =>
    intro acc hacc r hr
    rw [List.foldl_cons] at hr
    refine ih _ ?_ r hr
    intro u hu
    simp only [List.mem_append, List.mem_singleton] at hu
    rcases hu with hu | hu
    · exact hacc u hu
    · subst hu
      exact genRule_mem c a hc _

theorem genRules_mem (c a rc : Nat) (hc : 0 < c) (s : RngState) :
    ∀ r ∈ (genRules c a rc s).1,
      (∀ t ∈ r.symbols_needed, t < c) ∧ r.output_symbol < c := by
  unfold genRules
  exact genRules_foldl_mem c a hc (List.range rc) ([], s) (by simp)

/-- The range invariant behind C10: all cell values in both buffers, every
rule's output and needed symbols are below `symbol_count`, and the color table
has exactly `symbol_count` entries. -/
def RangeInv (w : World) : Prop :=
  (∀ v ∈ w.data, v < w.symbol_count) ∧
  (∀ v ∈ w.prev_data, v < w.symbol_count) ∧
  (∀ r ∈ w.rules, r.output_symbol < w.symbol_count ∧
    ∀ t ∈ r.symbols_needed, t < w.symbol_count) ∧
  w.symbol_to_color.length = w.symbol_count ∧
  2 ≤ w.symbol_count

/-- The states reachable by construction followed by `randomize()` and
`step()` calls in any order (the closure C10 quantifies over). -/
inductive ReachableRS : World → Prop where
  | base (world_size symbol_count avg : Nat) (rng : Nat → Nat) (w : World) :
      World.new? world_size symbol_count avg rng = some w → 2 ≤ symbol_count →
      ReachableRS w
  | randomized (w : World) (rand : Nat → Nat) :
      ReachableRS w → ReachableRS (World.randomize w rand)
  | stepped (w : World) : ReachableRS w → ReachableRS (World.step w)

theorem valAt_lt {l : List Nat} {c : Nat} (hl : ∀ v ∈ l, v < c) (hc : 0 < c) (i : Nat) :
    valAt l i < c := by
  by_cases hi : i < l.length
  · rw [valAt, List.getD_eq_getElem l 0 hi]
    exact hl _ (List.getElem_mem hi)
  · rw [valAt, List.getD_eq_default]
    · exact hc
    · omega

theorem compute_transition_lt {prev : List Nat} {N : Nat} {pos : Nat × Nat}
    {rules : List WorldRule} {v c : Nat}
    (hv : compute_transition prev N pos rules = some v)
    (hrules : ∀ r ∈ rules, r.output_symbol < c)
    (hprev : ∀ u ∈ prev, u < c) : v < c := by
  unfold compute_transition at hv
  cases hg : gather9 prev N pos.1 pos.2 with
  | none => rw [hg] at hv; cases hv
  | some g =>
    simp only [hg] at hv
    cases hf : rules.find? (fun rule => ruleMatches rule g) with
    | some r =>
      simp only [hf, Option.some.injEq] at hv
      subst hv
      exact hrules r (List.mem_of_find?_eq_some hf)
    | none =>
      simp only [hf] at hv
      obtain ⟨hlt2, hvv⟩ := List.getElem?_eq_some.mp hv
      rw [← hvv]
      exact hprev _ (List.getElem_mem hlt2)

theorem rangeInv_base {world_size symbol_count avg : Nat} {rng : Nat → Nat} {w : World}
    (h : World.new? world_size symbol_count avg rng = some w)
    (hc : 2 ≤ symbol_count) : RangeInv w := by
  obtain ⟨-, hd, hp, -, -, hsc, hcol, hr, -, -⟩ := new?_some h
  have hc0 : 0 < symbol_count := by omega
  refine ⟨?_, ?_, ?_, ?_, ?_⟩
  · intro v hv
    rw [hd] at hv
    rw [List.eq_of_mem_replicate hv, hsc]
    omega
  · intro v hv
    rw [hp] at hv
    rw [List.eq_of_mem_replicate hv, hsc]
    omega
  · intro r hrr
    rw [hr] at hrr
    have := genRules_mem symbol_count avg (ruleCountOf symbol_count avg) hc0
      (genColors symbol_count ⟨rng, 0⟩).2 r hrr
    rw [hsc]
    exact ⟨this.2, this.1⟩
  · rw [hcol, hsc, genColors_length]
  · rw [hsc]; exact hc

theorem rangeInv_randomize (w : World) (rand : Nat → Nat) (h : RangeInv w) :
    RangeInv (World.randomize w rand) := by
  obtain ⟨hd, hp, hr, hcol, hc⟩ := h
  refine ⟨?_, hp, hr, hcol, hc⟩
  intro v hv
  simp only [World.randomize, List.mem_map] at hv
  obtain ⟨i, -, hvi⟩ := hv
  rw [← hvi]
  exact Nat.mod_lt _ (by omega)

theorem step_symbol_count (w : World) : (World.step w).symbol_count = w.symbol_count := rfl

theorem rangeInv_step (w : World) (h : RangeInv w) : RangeInv (World.step w) := by
  obtain ⟨hd, hp, hr, hcol, hc⟩ := h
  refine ⟨?_, ?_, hr, hcol, hc⟩
  · intro v hv
    simp only [step_symbol_count]
    simp only [World.step, List.mem_map, List.mem_range] at hv
    obtain ⟨i, -, hvi⟩ := hv
    rw [← hvi]
    split
    · cases ht : compute_transition w.data w.size (i % w.size, (i - i % w.size) / w.size)
          w.rules with
      | none => simp [ht]; omega
      | some u =>
        simp only [ht, Option.getD_some]
        exact compute_transition_lt ht (fun r hrr => (hr r hrr).1) hd
    · exact valAt_lt hp (by omega) i
  · intro v hv
    simp only [step_symbol_count]
    rw [step_prev_eq] at hv
    exact hd v hv

/-- C10 — Symbol-range invariant: after `World::new` with `symbol_count ≥ 2`
and any sequence of `randomize()` and `step()` calls, every value in both
cell buffers is below `symbol_count`, every rule's output and required
symbols are below `symbol_count`, and the color table has exactly
`symbol_count` entries — so indexing it by any cell value is in bounds. -/
theorem symbol_range_invariant (w : World) (hr : ReachableRS w) :
    (∀ v ∈ w.data, v < w.symbol_count) ∧
    (∀ v ∈ w.prev_data, v < w.symbol_count) ∧
    (∀ r ∈ w.rules, r.output_symbol < w.symbol_count ∧
      ∀ t ∈ r.symbols_needed, t < w.symbol_count) ∧
    w.symbol_to_color.length = w.symbol_count := by
  have hinv : RangeInv w := by
    induction hr with
    | base _ _ _ _ _ hnew hcnt => exact rangeInv_base hnew hcnt
    | randomized w' rand _ ih => exact rangeInv_randomize w' rand ih
    | stepped w' _ ih => exact rangeInv_step w' ih
  exact ⟨hinv.1, hinv.2.1, hinv.2.2.1, hinv.2.2.2.1⟩

/-- Witness for C10 on a constructed, randomized, stepped world: the value of
cell 0 is below the symbol count. -/
theorem symbol_range_invariant_witness :
    valAt (World.step (World.randomize c1World (fun _ => 7))).data 0
      < (World.step (World.randomize c1World (fun _ => 7))).symbol_count := by
  have hr : ReachableRS (World.step (World.randomize c1World (fun _ => 7))) :=
    ReachableRS.stepped _ (ReachableRS.randomized _ _
      (ReachableRS.base 1 4 3 (fun _ => 0) c1World c1World_new (by decide)))
  exact (symbol_range_invariant _ hr).1
    (valAt (World.step (World.randomize c1World (fun _ => 7))).data 0) (by decide)

/-- Embedding of `fn bool_vec_diff_count` (main.rs lines 506-512): number of
positions where the two flag buffers disagree (buffers of equal length). -/
def bool_vec_diff_count (vec1 vec2 : List Bool) : Nat :=
  ((List.zip vec1 vec2).filter (fun p => p.2 != p.1)).length

/-- One run of the exploration loop of `main` (main.rs lines 400-490,
non-interactive path), threading the loop state: the world, the `count` of
completed iterations, the set of distinct sampled frames
(`unique_frame_hashes`, with the `DefaultHasher` idealized as injective so the
set holds the frames themselves), and the two window accumulators.  Per
iteration: `step()`; insert the frame hash while `count ≤ sample_frame_count`;
OR the `cell_changed` flags into the first accumulator while
`sample_frame_count-10 < count ≤ sample_frame_count-5` and into the second
while `sample_frame_count-5 < count ≤ sample_frame_count` (i32 arithmetic,
hence the `Int` casts); increment `count`; break when
`count == sample_frame_count` or no cell changed.  Structural fuel; `fuel =
sample_frame_count` is exact since the loop breaks when `count` reaches it. -/
def runLoop (sample_frame_count : Nat) :
    Nat → World → Nat → List (List Nat) → List Bool → List Bool →
    World × Nat × List (List Nat) × List Bool × List Bool
  | 0, w, count, uniq, acc1, acc2 => (w, count, uniq, acc1, acc2)
  | fuel + 1, w, count, uniq, acc1, acc2 =>
    let w := World.step w
    let uniq := if (count : Int) ≤ (sample_frame_count : Int) then
        (if w.data ∈ uniq then uniq else w.data :: uniq) else uniq
    let acc1 := if (sample_frame_count : Int) - 10 < (count : Int) ∧
        (count : Int) ≤ (sample_frame_count : Int) - 5 then
        List.zipWith (fun a f => a || f) acc1 w.cell_changed_flags else acc1
    let acc2 := if (sample_frame_count : Int) - 5 < (count : Int) ∧
        (count : Int) ≤ (sample_frame_count : Int) then
        List.zipWith (fun a f => a || f) acc2 w.cell_changed_flags else acc2
    let count := count + 1
    let there_were_changes := w.cell_changed_flags.any (fun b => b)
    if count = sample_frame_count ∨ there_were_changes = false then
      (w, count, uniq, acc1, acc2)
    else
      runLoop sample_frame_count fuel w count uniq acc1 acc2

/-- A complete run as in `main`: construction already done, `randomize()`
with draw oracle `rand`, then the sampling loop from `count = 0` with empty
hash set and all-false accumulators. -/
def runWorld (w : World) (rand : Nat → Nat) (sample_frame_count : Nat) :
    World × Nat × List (List Nat) × List Bool × List Bool :=
  runLoop sample_frame_count sample_frame_count (World.randomize w rand) 0 []
    (List.replicate (w.size * w.size) false) (List.replicate (w.size * w.size) false)

/-- The two novelty metrics of a run: `unique_count` (size of the frame-hash
set) and `diff_count` (`bool_vec_diff_count` of the two accumulators). -/
def runMetrics (w : World) (rand : Nat → Nat) (sample_frame_count : Nat) : Nat × Nat :=
  let r := runWorld w rand sample_frame_count
  (r.2.2.1.length, bool_vec_diff_count r.2.2.2.1 r.2.2.2.2)

/-- The seed-oracle draws that make `World::new(1, 4, 3, seed)` produce three
countdown rules 3→2→1→0 followed by five inert two-symbol rules: 12 color
draws, then per rule four inclusion draws (0 = include, 1000 = exclude) and
one output draw. -/
def c7list : List Nat :=
  List.replicate 12 0 ++
  [1000, 1000, 1000, 0, 2] ++
  [1000, 1000, 0, 1000, 1] ++
  [1000, 0, 1000, 1000, 0] ++
  [1000, 0, 0, 1000, 0] ++
  [1000, 0, 0, 1000, 0] ++
  [1000, 0, 0, 1000, 0] ++
  [1000, 0, 0, 1000, 0] ++
  [1000, 0, 0, 1000, 0]

def c7rng : Nat → Nat := fun k => c7list.getD k 0

/-- The world `World::new(1, 4, 3, seed)` produces under the `c7rng` draws. -/
def c7World : World := {
  size := 1
  data := [0]
  prev_data := [0]
  cell_changed_flags := [true]
  neighborhood_changed_flags := [true]
  symbol_count := 4
  symbol_to_color := [(0, 0, 0), (0, 0, 0), (0, 0, 0), (0, 0, 0)]
  rules := [⟨[3], 2⟩, ⟨[2], 1⟩, ⟨[1], 0⟩, ⟨[1, 2], 0⟩, ⟨[1, 2], 0⟩,
            ⟨[1, 2], 0⟩, ⟨[1, 2], 0⟩, ⟨[1, 2], 0⟩] }

theorem c7World_new : World.new? 1 4 3 c7rng = some c7World := by decide

/-- C7 counterexample: a world constructed from a fixed seed oracle, run twice
with the same configuration but different `thread_rng` draw sequences for
`randomize()`, yields different `unique_count` and `diff_count` — so a fixed
seed alone does not reproduce the novelty metrics. -/
theorem novelty_seed_determinism_counterexample :
    ∃ w : World, World.new? 1 4 3 c7rng = some w ∧
      runMetrics w (fun _ => 3) 7 ≠ runMetrics w (fun _ => 0) 7 :=
  ⟨c7World, c7World_new, by decide⟩

/-- C7 amended — the novelty metrics are a deterministic function of the
constructed world and of the `randomize()` draw sequence: two runs that agree
on the draws actually consumed (one per cell) produce identical
`unique_count` and `diff_count`.  Fixing the construction seed alone does not
fix them, because `randomize()` draws from the process-wide `thread_rng`, not
from the seed (see the counterexample). -/
theorem novelty_determinism_amended (w : World) (rand1 rand2 : Nat → Nat)
    (sample_frame_count : Nat)
    (h : ∀ i < w.data.length, rand1 i = rand2 i) :
    runMetrics w rand1 sample_frame_count = runMetrics w rand2 sample_frame_count := by
  have hrand : World.randomize w rand1 = World.randomize w rand2 := by
    refine world_eq_of_fields rfl ?_ rfl rfl rfl rfl rfl rfl
    show (List.range w.data.length).map (fun i => rand1 i % w.symbol_count)
        = (List.range w.data.length).map (fun i => rand2 i % w.symbol_count)
    apply List.map_congr_left
    intro i hi
    rw [h i (List.mem_range.mp hi)]
  unfold runMetrics runWorld
  rw [hrand]

/-- Witness for the amended C7: two oracles that agree on the single consumed
draw give equal metrics. -/
theorem novelty_determinism_amended_witness :
    runMetrics c7World (fun _ => 3) 7
      = runMetrics c7World (fun i => if i < 1 then 3 else 99) 7 :=
  novelty_determinism_amended c7World (fun _ => 3) (fun i => if i < 1 then 3 else 99) 7
    (by intro i hi; simp [show i < 1 from hi])

/-- Modelled from the spec: the per-cell OR of `cell_changed` over the
generations with counts in `[lo, hi)` — the flags sampled at count `k` are
those of the world after `k+1` steps of the randomized start world. -/
def specWindowOr (w0 : World) (rand : Nat → Nat) (lo hi : Nat) : List Bool :=
  (List.range (w0.size * w0.size)).map (fun i =>
    ((List.range (hi - lo)).map (fun j => lo + j)).any
      (fun k => flagAt (World.step^[k + 1] (World.randomize w0 rand)).cell_changed_flags i))

/-- A single-cell world with symbol_count 8 and countdown rules 7→6→…→0
(plus an inert padding rule), used as the failing input for C8. -/
def c8World : World := {
  size := 1
  data := [0]
  prev_data := [0]
  cell_changed_flags := [true]
  neighborhood_changed_flags := [true]
  symbol_count := 8
  symbol_to_color := List.replicate 8 (0, 0, 0)
  rules := [⟨[7], 6⟩, ⟨[6], 5⟩, ⟨[5], 4⟩, ⟨[4], 3⟩, ⟨[3], 2⟩, ⟨[2], 1⟩,
            ⟨[1], 0⟩, ⟨[1, 2], 0⟩] }

/-- C8 — the run with cutoff 11 starting from value 7 counts down and has its
last activity at count 6 = cutoff−5.  The spec's second five-generation window
`[cutoff-5, cutoff)` therefore ORs to true, but the code's second accumulator
stays all-false: the code's window condition is `count ∈ (cutoff-5, cutoff]`,
and `count` never reaches `cutoff` because the loop increments `count` before
the break check — so the "last batch of 5 frames" accumulator actually covers
at most 4 sampled generations, contradicting the code's own comment and the
spec. -/
theorem novelty_window_code_bug :
    (runWorld c8World (fun _ => 7) 11).2.2.2.2 = [false] ∧
    specWindowOr c8World (fun _ => 7) 6 11 = [true] ∧
    (runWorld c8World (fun _ => 7) 11).2.2.2.1 = [true] := by decide
